import Mathlib

/-!
# Verification of the LearnFast Concept Navigation & Path Resolution Engine

Shallow embedding of the navigation engine, path resolver, user progress
tracker and content retriever of the learn-faster-core repository, together
with proofs of the specification's claims about them.

The navigation engine, path resolver and user progress tracker sources are
not part of the available source tree (only their tests and callers are);
those components are modelled from the specification, as indicated on each
definition.  The content retriever (`retrieve_chunks_by_concept`) is
embedded from `src/path_resolution/content_retriever.py`.
-/

namespace LearnFast

/-- Modelled from the spec: concept names are case-insensitive and normalized
to lowercase at every read/write boundary (character-wise lowercasing, the
semantics of `str.lower` / `String.toLower`). -/
def normalize (s : String) : String := String.mk (s.data.map Char.toLower)

/-- Modelled from the spec: a directed prerequisite edge
`source_concept -> target_concept` with a numeric weight (schema
`PrerequisiteLink`); the free-text `reasoning` field plays no role in the
navigation algorithms and is omitted. -/
structure PrerequisiteLink where
  source_concept : String
  target_concept : String
  weight : Int
deriving DecidableEq, Repr

/-- Modelled from the spec: the Concept Graph Store snapshot, holding concept
nodes (normalized names) and weighted prerequisite edges. -/
structure Graph where
  nodes : List String
  edges : List PrerequisiteLink
deriving Repr

/-- Modelled from the spec: per-user progress state, two sets of normalized
concept names (`UserProgressState`). -/
structure UserState where
  in_progress : List String
  completed : List String
deriving DecidableEq, Repr

/-- Modelled from the spec: the User Progress Store maps each user id to its
progress state; an unknown user has two empty sets. -/
def Tracker := String → UserState

/-- Modelled from the spec: initial store, every user unknown. -/
def Tracker.init : Tracker := fun _ => ⟨[], []⟩

/-- Modelled from the spec: direct (single-hop) predecessors of a concept:
sources of edges whose target is the concept. -/
def predecessors (g : Graph) (c : String) : List String :=
  (g.edges.filter (fun e => e.target_concept == c)).map (·.source_concept)

/-- Modelled from the spec: `validate_prerequisites` — a concept is valid iff
every direct predecessor of the (normalized) concept is in the user's
completed set; a concept with no incoming edges is vacuously valid. -/
def validate_prerequisites (g : Graph) (st : UserState) (concept : String) : Bool :=
  (predecessors g (normalize concept)).all (fun p => st.completed.contains p)

/-- Modelled from the spec: `get_unlocked_concepts` — the concepts that are
not already completed and whose direct predecessors are all completed. -/
def get_unlocked_concepts (g : Graph) (st : UserState) : List String :=
  g.nodes.filter (fun c => !(st.completed.contains c) && validate_prerequisites g st c)

/-- Modelled from the spec: `mark_in_progress` on a single user state: adds
the normalized concept to `in_progress` with set semantics (no duplicates);
completion is sticky, so a completed concept is left alone entirely
(otherwise the disjointness invariant of `UserProgressState` would break). -/
def UserState.markInProgress (st : UserState) (concept : String) : UserState :=
  if normalize concept ∈ st.completed then st
  else if normalize concept ∈ st.in_progress then st
  else { st with in_progress := normalize concept :: st.in_progress }

/-- Modelled from the spec: `mark_completed` on a single user state: adds the
normalized concept to `completed` (set semantics) and removes it from
`in_progress` as one transition. -/
def UserState.markCompleted (st : UserState) (concept : String) : UserState :=
  { in_progress := st.in_progress.erase (normalize concept),
    completed := if normalize concept ∈ st.completed then st.completed
                 else normalize concept :: st.completed }

/-- Modelled from the spec: `mark_in_progress(user_id, concept)` on the store. -/
def mark_in_progress (tr : Tracker) (user_id concept : String) : Tracker :=
  fun u => if u = user_id then (tr user_id).markInProgress concept else tr u

/-- Modelled from the spec: `mark_completed(user_id, concept)` on the store. -/
def mark_completed (tr : Tracker) (user_id concept : String) : Tracker :=
  fun u => if u = user_id then (tr user_id).markCompleted concept else tr u

/-- Modelled from the spec: `get_user_state(user_id)` — snapshot of both sets;
an unknown user yields two empty sets (the store's total-map default). -/
def get_user_state (tr : Tracker) (user_id : String) : UserState := tr user_id

/-- Modelled from the spec: caller actions on the progress tracker. -/
inductive Op where
  | start (user_id concept : String)
  | complete (user_id concept : String)
deriving DecidableEq, Repr

/-- Modelled from the spec: apply one caller action to the store. -/
def applyOp (tr : Tracker) : Op → Tracker
  | Op.start u c => mark_in_progress tr u c
  | Op.complete u c => mark_completed tr u c

/-- Modelled from the spec: run a sequence of caller actions from the initial
(empty) store. -/
def runOps (ops : List Op) : Tracker :=
  ops.foldl applyOp Tracker.init

/-- Modelled from the spec: deterministic tie-break between two outgoing (or
incoming) edges — highest edge weight wins, then lexicographically smaller
neighbour name. `pick e f` is true when `f` beats `e`. -/
def edgeBeats (epriority fpriority : Int) (ename fname : String) : Bool :=
  epriority < fpriority || (epriority == fpriority && compare fname ename == Ordering.lt)

/-- Modelled from the spec: among a list of candidate edges, the target of
the edge with the highest weight, tie-broken lexicographically. -/
def pickBestTarget : List PrerequisiteLink → Option String
  | [] => none
  | e :: rest =>
      some ((rest.foldl
        (fun best f =>
          if edgeBeats best.weight f.weight best.target_concept f.target_concept then f else best)
        e).target_concept)

/-- Modelled from the spec: among a list of candidate edges, the source of
the edge with the highest weight, tie-broken lexicographically. -/
def pickBestSource : List PrerequisiteLink → Option String
  | [] => none
  | e :: rest =>
      some ((rest.foldl
        (fun best f =>
          if edgeBeats best.weight f.weight best.source_concept f.source_concept then f else best)
        e).source_concept)

/-- Modelled from the spec: the single deterministic forward step of
`get_path_preview`: among the edges leaving `c`, pick the target of the edge
with the highest weight, tie-broken lexicographically. -/
def bestSuccessor (edges : List PrerequisiteLink) (c : String) : Option String :=
  pickBestTarget (edges.filter (fun e => e.source_concept == c))

/-- Modelled from the spec: the single deterministic backward step of the
ancestor-chain lookup: among the edges entering `c`, pick the source of the
edge with the highest weight, tie-broken lexicographically. -/
def bestPredecessor (edges : List PrerequisiteLink) (c : String) : Option String :=
  pickBestSource (edges.filter (fun e => e.target_concept == c))

/-- Modelled from the spec: generic cycle-guarded single-chain traversal.
`visited` is the set of nodes already on the current traversal path; a node
already visited is never revisited, and the fuel bounds the number of hops. -/
def followChain (next : String → Option String) : Nat → List String → String → List String
  | 0, _, _ => []
  | fuel + 1, visited, cur =>
      match next cur with
      | none => [cur]
      | some nxt =>
          if nxt ∈ cur :: visited then [cur]
          else cur :: followChain next fuel (cur :: visited) nxt

/-- Modelled from the spec: `get_path_preview(start_concept, depth)` — follow
the deterministic forward chain from the normalized start for at most `depth`
hops (at most `depth + 1` nodes), with the cycle guard. -/
def get_path_preview (g : Graph) (start_concept : String) (depth : Nat) : List String :=
  followChain (bestSuccessor g.edges) (depth + 1) [] (normalize start_concept)

/-- Modelled from the spec: the ancestor-chain lookup used by `resolve_path`:
follow the deterministic backward chain from the normalized target (cycle
guarded, bounded by the node count) and reverse it into root-to-target
order. -/
def ancestor_chain (g : Graph) (target : String) : List String :=
  (followChain (bestPredecessor g.edges) (g.nodes.length + 1) [] (normalize target)).reverse

/-- Modelled from the spec: `MINUTES_PER_CHUNK` is a fixed constant; the test
suite's mock (5 chunks per concept ↦ 10 minutes) pins it to 2. -/
def MINUTES_PER_CHUNK : Nat := 2

/-- Modelled from the spec: the content layer's aggregate content-unit count
across a concept set (`content_unit_count`, one batched query), given the
per-concept chunk counts `cu`. -/
def total_content_units (cu : String → Nat) (concepts : List String) : Nat :=
  (concepts.map cu).sum

/-- Modelled from the spec: `estimate_learning_time(concepts)` =
aggregate content units × `MINUTES_PER_CHUNK`. -/
def estimate_learning_time (cu : String → Nat) (concepts : List String) : Nat :=
  total_content_units cu concepts * MINUTES_PER_CHUNK

/-- Modelled from the spec: the accumulating walk of `prune_path_by_time`:
include concepts from the front while the running total stays within the
limit; stop at (and exclude) the first concept whose inclusion would exceed
it. -/
def pruneAux (est : String → Nat) (time_limit : Nat) : Nat → List String → List String × Nat
  | acc, [] => ([], acc)
  | acc, c :: rest =>
      if time_limit < acc + est c then ([], acc)
      else
        let r := pruneAux est time_limit (acc + est c) rest
        (c :: r.1, r.2)

/-- Modelled from the spec: `prune_path_by_time(path, time_limit)` →
`(pruned_path, cumulative_time)`, where `est c` is the estimated time of the
single concept `c` (`estimate_learning_time` on the singleton). -/
def prune_path_by_time (est : String → Nat) (path : List String) (time_limit : Nat) :
    List String × Nat :=
  pruneAux est time_limit 0 path

/-- Modelled from the spec: `LearningPath`, the output of the path
resolver. -/
structure LearningPath where
  concepts : List String
  estimated_time_minutes : Nat
  target_concept : String
  pruned : Bool
deriving DecidableEq, Repr

/-- Modelled from the spec: `resolve_path(user_id, target_concept,
time_budget_minutes)`: `none` is the not-found sentinel when the target does
not exist in the graph; otherwise the full ancestor chain is returned when it
fits the budget, and the pruned prefix (with `pruned = true` and the
normalized target name preserved) when it does not. -/
def resolve_path (g : Graph) (cu : String → Nat) (target_concept : String)
    (time_budget_minutes : Nat) : Option LearningPath :=
  let t := normalize target_concept
  if g.nodes.contains t then
    let chain := ancestor_chain g t
    let total := estimate_learning_time cu chain
    if total ≤ time_budget_minutes then
      some ⟨chain, total, t, false⟩
    else
      let pr := prune_path_by_time (fun c => estimate_learning_time cu [c]) chain
        time_budget_minutes
      some ⟨pr.1, pr.2, t, true⟩
  else none

/-- Modelled from the spec: the prerequisite edges of a linear chain
`c₀ → c₁ → ⋯`, each with weight 1 (as built by the property tests). -/
def chainEdges : List String → List PrerequisiteLink
  | a :: b :: rest => ⟨a, b, 1⟩ :: chainEdges (b :: rest)
  | _ => []

/-- Modelled from the spec: the graph of a linear chain over the given
(normalized, distinct) concept names. -/
def chainGraph (cs : List String) : Graph :=
  ⟨cs, chainEdges cs⟩

/-- The unique forward step inside a linear chain: the successor of the first
occurrence of `c`. -/
def nextInChain : List String → String → Option String
  | a :: b :: rest, c => if c = a then some b else nextInChain (b :: rest) c
  | _, _ => none

/-- `LearningChunk` row of the `learning_chunks` table, as used by
`ContentRetriever.retrieve_chunks_by_concept` (the embedding column is never
retrieved there). -/
structure LearningChunk where
  id : Nat
  doc_source : String
  content : String
  concept_tag : String
deriving DecidableEq, Repr

/-- The store query of `retrieve_chunks_by_concept`:
`SELECT ... FROM learning_chunks WHERE lower(concept_tag) = lower(%s)
ORDER BY id ASC`, over a table of rows. -/
def query_chunks (table : List LearningChunk) (concept : String) : List LearningChunk :=
  (table.filter (fun r => normalize r.concept_tag == normalize concept)).mergeSort
    (fun a b => a.id ≤ b.id)

/-- `ContentRetriever.retrieve_chunks_by_concept(concept)`: returns `[]` for
an empty (falsy) concept name; runs the store query and returns its rows; if
the store raises (`db = Except.error _`), logs and returns `[]`. -/
def retrieve_chunks_by_concept (db : Except Unit (List LearningChunk))
    (concept : String) : List LearningChunk :=
  if concept.isEmpty then []
  else
    match db.map (fun table => query_chunks table concept) with
    | Except.error _ => []
    | Except.ok rows => rows

/-! ## Theorems -/

/-- C2: `validate_prerequisites(user_id, concept)` returns true when the
concept has no incoming prerequisite edges, and in general it returns true
iff every direct (single-hop) predecessor of the (normalized) concept is in
the user's completed set. -/
theorem validate_prerequisites_spec (g : Graph) (st : UserState) (c : String) :
    (predecessors g (normalize c) = [] → validate_prerequisites g st c = true) ∧
    (validate_prerequisites g st c = true ↔
      ∀ p ∈ predecessors g (normalize c), p ∈ st.completed) := by
  constructor
  · intro h
    simp [validate_prerequisites, h]
  · simp [validate_prerequisites, List.all_eq_true]

/-- Witness for C2 on the two-node chain a → b: with nothing completed, a
is valid (it has no incoming edges) while b is not; after completing a, b
becomes valid. -/
theorem validate_prerequisites_spec_witness :
    validate_prerequisites ⟨["a", "b"], [⟨"a", "b", 1⟩]⟩ ⟨[], []⟩ "a" = true ∧
    validate_prerequisites ⟨["a", "b"], [⟨"a", "b", 1⟩]⟩ ⟨[], []⟩ "b" = false ∧
    validate_prerequisites ⟨["a", "b"], [⟨"a", "b", 1⟩]⟩ ⟨[], ["a"]⟩ "b" = true :=
  ⟨(validate_prerequisites_spec ⟨["a", "b"], [⟨"a", "b", 1⟩]⟩ ⟨[], []⟩ "a").1 (by decide),
   by decide,
   (validate_prerequisites_spec ⟨["a", "b"], [⟨"a", "b", 1⟩]⟩ ⟨[], ["a"]⟩ "b").2.mpr
     (by decide)⟩

/-- C3: `get_unlocked_concepts(user_id)` never contains a completed concept,
and contains exactly the non-completed concepts of the graph all of whose
direct predecessors are completed for that user. -/
theorem get_unlocked_concepts_spec (g : Graph) (st : UserState) (c : String) :
    (c ∈ get_unlocked_concepts g st ↔
      c ∈ g.nodes ∧ c ∉ st.completed ∧
        ∀ p ∈ predecessors g (normalize c), p ∈ st.completed) ∧
    (c ∈ st.completed → c ∉ get_unlocked_concepts g st) := by
  have hval := (validate_prerequisites_spec g st c).2
  constructor
  · rw [get_unlocked_concepts, List.mem_filter]
    simp only [Bool.and_eq_true, Bool.not_eq_true', ← hval]
    constructor
    · rintro ⟨hn, hnc, hv⟩
      exact ⟨hn, by simpa using hnc, hv⟩
    · rintro ⟨hn, hnc, hv⟩
      exact ⟨hn, by simpa using hnc, hv⟩
  · intro hc hmem
    rw [get_unlocked_concepts, List.mem_filter] at hmem
    rcases hmem with ⟨-, h2⟩
    simp only [Bool.and_eq_true, Bool.not_eq_true'] at h2
    exact absurd hc (by simpa using h2.1)

/-- Witness for C3 on the two-node chain a → b with a completed: a is
excluded (already completed) and b is unlocked. -/
theorem get_unlocked_concepts_spec_witness :
    "a" ∉ get_unlocked_concepts ⟨["a", "b"], [⟨"a", "b", 1⟩]⟩ ⟨[], ["a"]⟩ ∧
    "b" ∈ get_unlocked_concepts ⟨["a", "b"], [⟨"a", "b", 1⟩]⟩ ⟨[], ["a"]⟩ :=
  ⟨(get_unlocked_concepts_spec ⟨["a", "b"], [⟨"a", "b", 1⟩]⟩ ⟨[], ["a"]⟩ "a").2 (by decide),
   (get_unlocked_concepts_spec ⟨["a", "b"], [⟨"a", "b", 1⟩]⟩ ⟨[], ["a"]⟩ "b").1.mpr
     (by decide)⟩

/-- C5: `estimate_learning_time(concepts)` equals the aggregate content-unit
count over the concept set times the fixed constant `MINUTES_PER_CHUNK`, for
every per-concept chunk-count assignment; consequently it is additive over
concatenation of concept lists. -/
theorem estimate_learning_time_spec (cu : String → Nat) (concepts l₁ l₂ : List String) :
    estimate_learning_time cu concepts = (concepts.map cu).sum * MINUTES_PER_CHUNK ∧
    estimate_learning_time cu (l₁ ++ l₂) =
      estimate_learning_time cu l₁ + estimate_learning_time cu l₂ := by
  refine ⟨rfl, ?_⟩
  simp [estimate_learning_time, total_content_units, Nat.add_mul]

theorem UserState.markInProgress_completed (st : UserState) (c : String) :
    (st.markInProgress c).completed = st.completed := by
  unfold UserState.markInProgress
  by_cases h1 : normalize c ∈ st.completed
  · simp [h1]
  · by_cases h2 : normalize c ∈ st.in_progress <;> simp [h1, h2]

theorem UserState.markInProgress_idem (st : UserState) (c : String) :
    (st.markInProgress c).markInProgress c = st.markInProgress c := by
  unfold UserState.markInProgress
  by_cases h1 : normalize c ∈ st.completed
  · simp [h1]
  · by_cases h2 : normalize c ∈ st.in_progress
    · simp [h1, h2]
    · simp [h1, h2]

/-- The invariant of reachable progress states: `in_progress` has no
duplicates (set semantics) and is disjoint from `completed`. -/
def StateInv (st : UserState) : Prop :=
  st.in_progress.Nodup ∧ ∀ x ∈ st.in_progress, x ∉ st.completed

theorem StateInv.markInProgress {st : UserState} (h : StateInv st) (c : String) :
    StateInv (st.markInProgress c) := by
  obtain ⟨hnd, hdisj⟩ := h
  unfold StateInv UserState.markInProgress
  by_cases h1 : normalize c ∈ st.completed
  · rw [if_pos h1]
    exact ⟨hnd, hdisj⟩
  · rw [if_neg h1]
    by_cases h2 : normalize c ∈ st.in_progress
    · rw [if_pos h2]
      exact ⟨hnd, hdisj⟩
    · rw [if_neg h2]
      refine ⟨List.nodup_cons.mpr ⟨h2, hnd⟩, ?_⟩
      intro x hx
      rcases List.mem_cons.mp hx with rfl | hx'
      · exact h1
      · exact hdisj x hx'

theorem StateInv.markCompleted {st : UserState} (h : StateInv st) (c : String) :
    StateInv (st.markCompleted c) := by
  obtain ⟨hnd, hdisj⟩ := h
  refine ⟨hnd.erase _, ?_⟩
  intro x hx
  obtain ⟨hne, hxin⟩ := (List.Nodup.mem_erase_iff hnd).mp hx
  show x ∉ (if normalize c ∈ st.completed then st.completed
            else normalize c :: st.completed)
  by_cases hc : normalize c ∈ st.completed
  · rw [if_pos hc]
    exact hdisj x hxin
  · rw [if_neg hc]
    intro hmem
    rcases List.mem_cons.mp hmem with rfl | hmem'
    · exact hne rfl
    · exact hdisj x hxin hmem'

/-- The invariant holds for every user of a tracker. -/
def TrackerInv (tr : Tracker) : Prop := ∀ u, StateInv (tr u)

theorem trackerInv_applyOp {tr : Tracker} (h : TrackerInv tr) (op : Op) :
    TrackerInv (applyOp tr op) := by
  cases op with
  | start u c =>
      intro v
      show StateInv (mark_in_progress tr u c v)
      unfold mark_in_progress
      by_cases hv : v = u
      · rw [if_pos hv]
        exact (h u).markInProgress c
      · rw [if_neg hv]
        exact h v
  | complete u c =>
      intro v
      show StateInv (mark_completed tr u c v)
      unfold mark_completed
      by_cases hv : v = u
      · rw [if_pos hv]
        exact (h u).markCompleted c
      · rw [if_neg hv]
        exact h v

theorem trackerInv_runOps (ops : List Op) : TrackerInv (runOps ops) := by
  have key : ∀ (l : List Op) (tr : Tracker), TrackerInv tr →
      TrackerInv (l.foldl applyOp tr) := by
    intro l
    induction l with
    | nil => exact fun tr h => h
    | cons op rest ih => exact fun tr h => ih _ (trackerInv_applyOp h op)
  exact key ops Tracker.init (fun u => ⟨List.nodup_nil, by simp [Tracker.init]⟩)

/-- C6: after every sequence of `mark_in_progress` / `mark_completed`
operations from the initial store, every user's `in_progress` and
`completed` sets are disjoint; and `mark_completed` puts the normalized
concept into `completed` and out of `in_progress` in the same transition, so
the concept is observed in exactly one of the two sets afterwards. -/
theorem progress_disjoint_spec :
    (∀ (ops : List Op) (u x : String),
      x ∈ ((runOps ops) u).in_progress → x ∉ ((runOps ops) u).completed) ∧
    (∀ (ops : List Op) (u c : String),
      normalize c ∈ ((mark_completed (runOps ops) u c) u).completed ∧
      normalize c ∉ ((mark_completed (runOps ops) u c) u).in_progress) := by
  constructor
  · intro ops u x hx
    exact (trackerInv_runOps ops u).2 x hx
  · intro ops u c
    have hinv := trackerInv_runOps ops u
    have heq : (mark_completed (runOps ops) u c) u = ((runOps ops) u).markCompleted c := by
      simp [mark_completed]
    rw [heq]
    constructor
    · show normalize c ∈
        (if normalize c ∈ ((runOps ops) u).completed
         then ((runOps ops) u).completed else normalize c :: ((runOps ops) u).completed)
      by_cases hc : normalize c ∈ ((runOps ops) u).completed
      · rwa [if_pos hc]
      · rw [if_neg hc]
        exact List.mem_cons_self _ _
    · show normalize c ∉ ((runOps ops) u).in_progress.erase (normalize c)
      intro hmem
      exact ((List.Nodup.mem_erase_iff hinv.1).mp hmem).1 rfl

/-- Witness for C6: after starting concept x for user u, x is in
`in_progress` and — by the disjointness invariant — not in `completed`; and
after completing it, it is in `completed` and not in `in_progress`. -/
theorem progress_disjoint_spec_witness :
    "x" ∉ ((runOps [Op.start "u" "x"]) "u").completed ∧
    normalize "x" ∈
      ((mark_completed (runOps [Op.start "u" "x"]) "u" "x") "u").completed ∧
    normalize "x" ∉
      ((mark_completed (runOps [Op.start "u" "x"]) "u" "x") "u").in_progress :=
  ⟨progress_disjoint_spec.1 [Op.start "u" "x"] "u" "x" (by decide),
   (progress_disjoint_spec.2 [Op.start "u" "x"] "u" "x").1,
   (progress_disjoint_spec.2 [Op.start "u" "x"] "u" "x").2⟩

/-- C9: `mark_in_progress` is idempotent — a second identical call leaves the
whole store unchanged — and it never modifies any user's `completed` set
(in particular calling it on an already-completed concept leaves `completed`
untouched: completion is sticky). -/
theorem mark_in_progress_spec (tr : Tracker) (u c : String) :
    mark_in_progress (mark_in_progress tr u c) u c = mark_in_progress tr u c ∧
    ∀ v, (mark_in_progress tr u c v).completed = (tr v).completed := by
  constructor
  · funext v
    show (if v = u then ((mark_in_progress tr u c) u).markInProgress c
          else (mark_in_progress tr u c) v) =
        (if v = u then (tr u).markInProgress c else tr v)
    have hu : (mark_in_progress tr u c) u = (tr u).markInProgress c := by
      simp [mark_in_progress]
    by_cases hv : v = u
    · rw [if_pos hv, if_pos hv, hu, UserState.markInProgress_idem]
    · rw [if_neg hv, if_neg hv]
      show (if v = u then (tr u).markInProgress c else tr v) = tr v
      rw [if_neg hv]
  · intro v
    show (if v = u then (tr u).markInProgress c else tr v).completed = (tr v).completed
    by_cases hv : v = u
    · rw [if_pos hv, UserState.markInProgress_completed, hv]
    · rw [if_neg hv]

theorem pruneAux_spec (est : String → Nat) (limit : Nat) :
    ∀ (l : List String) (acc : Nat), acc ≤ limit →
      (pruneAux est limit acc l).2 ≤ limit ∧
      ∃ s, l = (pruneAux est limit acc l).1 ++ s ∧
        ∀ c s', s = c :: s' → limit < (pruneAux est limit acc l).2 + est c := by
  intro l
  induction l with
  | nil =>
      intro acc hacc
      refine ⟨hacc, [], rfl, ?_⟩
      intro c s' hs
      cases hs
  | cons c rest ih =>
      intro acc hacc
      by_cases hover : limit < acc + est c
      · rw [pruneAux, if_pos hover]
        refine ⟨hacc, c :: rest, rfl, ?_⟩
        intro c' s' hs
        cases hs
        exact hover
      · rw [pruneAux, if_neg hover]
        obtain ⟨h1, s, hs, hmax⟩ := ih (acc + est c) (Nat.le_of_not_lt hover)
        exact ⟨h1, s, by rw [List.cons_append, ← hs], hmax⟩

/-- C1: `prune_path_by_time(path, time_limit)` returns a pair
`(pruned_path, cumulative_time)` where the cumulative time never exceeds the
limit, the pruned path is exactly a prefix of the input path, the prefix is
maximal (the first excluded concept's cost, added to the cumulative time,
would exceed the limit), and when the first concept alone exceeds the limit
the result is the empty path with cumulative time 0. -/
theorem prune_path_by_time_spec (est : String → Nat) (path : List String) (limit : Nat) :
    (prune_path_by_time est path limit).2 ≤ limit ∧
    path.take (prune_path_by_time est path limit).1.length =
      (prune_path_by_time est path limit).1 ∧
    (∀ c rest, path = (prune_path_by_time est path limit).1 ++ c :: rest →
      limit < (prune_path_by_time est path limit).2 + est c) ∧
    (∀ c rest, path = c :: rest → limit < est c →
      prune_path_by_time est path limit = ([], 0)) := by
  obtain ⟨h1, s, hs, hmax⟩ := pruneAux_spec est limit path 0 (Nat.zero_le limit)
  have hpr : prune_path_by_time est path limit = pruneAux est limit 0 path := rfl
  rw [hpr]
  refine ⟨h1, ?_, ?_, ?_⟩
  · have ht := List.take_left (pruneAux est limit 0 path).1 s
    rw [← hs] at ht
    exact ht
  · intro c rest hsplit
    have h2 : (pruneAux est limit 0 path).1 ++ s =
        (pruneAux est limit 0 path).1 ++ c :: rest := by
      rw [← hs]
      exact hsplit
    exact hmax c rest (List.append_cancel_left h2)
  · intro c rest hpath hfirst
    subst hpath
    rw [pruneAux, if_pos (by simpa using hfirst)]

/-- Witness for C1, the spec's scenario: pruning `["c0","c1","c2"]` with
per-concept cost 10 and limit 25 keeps `["c0","c1"]` at cumulative time 20,
and adding the excluded concept's cost would exceed the limit. -/
theorem prune_path_by_time_spec_witness :
    prune_path_by_time (fun _ => 10) ["c0", "c1", "c2"] 25 = (["c0", "c1"], 20) ∧
    25 < (prune_path_by_time (fun _ => 10) ["c0", "c1", "c2"] 25).2 + 10 :=
  ⟨by decide,
   (prune_path_by_time_spec (fun _ => 10) ["c0", "c1", "c2"] 25).2.2.1 "c2" []
     (by decide)⟩

theorem followChain_length (next : String → Option String) :
    ∀ (fuel : Nat) (visited : List String) (cur : String),
      (followChain next fuel visited cur).length ≤ fuel := by
  intro fuel
  induction fuel with
  | zero =>
      intro visited cur
      simp [followChain]
  | succ n ih =>
      intro visited cur
      rw [followChain]
      cases hnext : next cur with
      | none => simp
      | some nxt =>
          by_cases hmem : nxt ∈ cur :: visited
          · simp [hmem]
          · simp only [hmem, if_neg, List.length_cons]
            exact Nat.succ_le_succ (ih (cur :: visited) nxt)

theorem followChain_nodup (next : String → Option String) :
    ∀ (fuel : Nat) (visited : List String) (cur : String), cur ∉ visited →
      (followChain next fuel visited cur).Nodup ∧
      ∀ x ∈ followChain next fuel visited cur, x ∉ visited := by
  intro fuel
  induction fuel with
  | zero =>
      intro visited cur _
      simp [followChain]
  | succ n ih =>
      intro visited cur hcur
      rw [followChain]
      cases hnext : next cur with
      | none =>
          refine ⟨List.nodup_cons.mpr ⟨List.not_mem_nil cur, List.nodup_nil⟩, ?_⟩
          intro x hx
          rcases List.mem_singleton.mp hx with rfl
          exact hcur
      | some nxt =>
          dsimp only
          by_cases hmem : nxt ∈ cur :: visited
          · rw [if_pos hmem]
            refine ⟨List.nodup_cons.mpr ⟨List.not_mem_nil cur, List.nodup_nil⟩, ?_⟩
            intro x hx
            rcases List.mem_singleton.mp hx with rfl
            exact hcur
          · rw [if_neg hmem]
            obtain ⟨hnd, hvis⟩ := ih (cur :: visited) nxt hmem
            constructor
            · refine List.nodup_cons.mpr ⟨?_, hnd⟩
              intro hcurmem
              exact hvis cur hcurmem (List.mem_cons_self cur visited)
            · intro x hx
              rcases List.mem_cons.mp hx with rfl | hx'
              · exact hcur
              · intro hxv
                exact hvis x hx' (List.mem_cons_of_mem cur hxv)

/-- C7: every traversal is cycle-guarded and bounded on every graph,
including cyclic ones: `get_path_preview` never revisits a node (its result
has no duplicates) and returns at most `depth + 1` nodes, and the
ancestor-chain lookup used by `resolve_path` never revisits a node and
returns at most `|nodes| + 1` nodes. -/
theorem traversal_cycle_guard_spec (g : Graph) (s : String) (d : Nat) (t : String) :
    (get_path_preview g s d).Nodup ∧
    (get_path_preview g s d).length ≤ d + 1 ∧
    (ancestor_chain g t).Nodup ∧
    (ancestor_chain g t).length ≤ g.nodes.length + 1 := by
  refine ⟨?_, ?_, ?_, ?_⟩
  · exact (followChain_nodup (bestSuccessor g.edges) (d + 1) [] (normalize s)
      (List.not_mem_nil _)).1
  · exact followChain_length (bestSuccessor g.edges) (d + 1) [] (normalize s)
  · exact List.nodup_reverse.mpr
      (followChain_nodup (bestPredecessor g.edges) (g.nodes.length + 1) [] (normalize t)
        (List.not_mem_nil _)).1
  · rw [ancestor_chain, List.length_reverse]
    exact followChain_length (bestPredecessor g.edges) (g.nodes.length + 1) [] (normalize t)

/-- C8: `resolve_path` returns the `none` (not-found) sentinel exactly when
the normalized target concept is absent from the graph; for an existing
target it always returns `some` learning path carrying the normalized target
name — so "unreachable" is distinguishable from "reachable but time-pruned
to an empty concept list". -/
theorem resolve_path_spec (g : Graph) (cu : String → Nat) (target : String) (budget : Nat) :
    (normalize target ∉ g.nodes → resolve_path g cu target budget = none) ∧
    (normalize target ∈ g.nodes →
      ∃ lp, resolve_path g cu target budget = some lp ∧
        lp.target_concept = normalize target) := by
  constructor
  · intro habs
    rw [resolve_path]
    rw [if_neg (by simpa using habs)]
  · intro hmem
    rw [resolve_path]
    rw [if_pos (by simpa using hmem)]
    by_cases hfit :
        estimate_learning_time cu (ancestor_chain g (normalize target)) ≤ budget
    · rw [if_pos hfit]
      exact ⟨_, rfl, rfl⟩
    · rw [if_neg hfit]
      exact ⟨_, rfl, rfl⟩

/-- Witness for C8: in the one-node graph holding only a, resolving the
missing target z yields the not-found sentinel, while resolving a yields a
learning path. -/
theorem resolve_path_spec_witness :
    resolve_path (chainGraph ["a"]) (fun _ => 1) "z" 10 = none ∧
    ∃ lp, resolve_path (chainGraph ["a"]) (fun _ => 1) "a" 10 = some lp ∧
      lp.target_concept = normalize "a" :=
  ⟨(resolve_path_spec (chainGraph ["a"]) (fun _ => 1) "z" 10).1 (by decide),
   (resolve_path_spec (chainGraph ["a"]) (fun _ => 1) "a" 10).2 (by decide)⟩

theorem chainEdges_source_mem : ∀ (l : List String) (e : PrerequisiteLink),
    e ∈ chainEdges l → e.source_concept ∈ l := by
  intro l
  induction l with
  | nil =>
      intro e he
      simp [chainEdges] at he
  | cons a t ih =>
      intro e he
      cases t with
      | nil => simp [chainEdges] at he
      | cons b rest =>
          rw [chainEdges] at he
          rcases List.mem_cons.mp he with rfl | he'
          · exact List.mem_cons_self _ _
          · exact List.mem_cons_of_mem a (ih e he')

theorem bestSuccessor_chainEdges : ∀ (l : List String), l.Nodup →
    ∀ c, bestSuccessor (chainEdges l) c = nextInChain l c := by
  intro l
  induction l with
  | nil =>
      intro _ c
      rfl
  | cons a t ih =>
      intro hnd c
      cases t with
      | nil => rfl
      | cons b rest =>
          rw [chainEdges, bestSuccessor, List.filter_cons]
          by_cases hca : a = c
          · subst hca
            have htail : (chainEdges (b :: rest)).filter
                (fun e => e.source_concept == a) = [] := by
              rw [List.filter_eq_nil_iff]
              intro e he
              have hsrc := chainEdges_source_mem (b :: rest) e he
              have hna : a ∉ b :: rest := (List.nodup_cons.mp hnd).1
              simp only [beq_iff_eq]
              intro heq
              exact hna (heq ▸ hsrc)
            simp only [beq_self_eq_true, if_pos, htail]
            rw [nextInChain, if_pos rfl]
            rfl
          · have hbeq : ((⟨a, b, 1⟩ : PrerequisiteLink).source_concept == c) = false := by
              simpa using hca
            rw [hbeq]
            simp only [Bool.false_eq_true, if_false]
            have := ih (List.nodup_cons.mp hnd).2 c
            rw [bestSuccessor] at this
            rw [this, nextInChain, if_neg (fun h => hca h.symm)]

theorem nextInChain_suffix : ∀ (pre : List String) (a : String) (rest : List String),
    (pre ++ a :: rest).Nodup → nextInChain (pre ++ a :: rest) a = rest.head? := by
  intro pre
  induction pre with
  | nil =>
      intro a rest hnd
      cases rest with
      | nil => rfl
      | cons b r =>
          rw [List.nil_append, nextInChain, if_pos rfl]
          rfl
  | cons p pre₂ ih =>
      intro a rest hnd
      rw [List.cons_append] at hnd ⊢
      have hpa : a ≠ p := by
        intro h
        have hp : p ∉ pre₂ ++ a :: rest := (List.nodup_cons.mp hnd).1
        exact hp (h ▸ (List.mem_append.mpr (Or.inr (List.mem_cons_self a rest))))
      have htail : nextInChain (pre₂ ++ a :: rest) a = rest.head? :=
        ih a rest (List.nodup_cons.mp hnd).2
      cases hl : pre₂ ++ a :: rest with
      | nil =>
          exact absurd hl (by simp)
      | cons q l₂ =>
          rw [hl] at htail
          show nextInChain (p :: q :: l₂) a = rest.head?
          rw [nextInChain, if_neg hpa]
          exact htail

theorem followChain_chainGraph (l : List String) (hn : l.Nodup) :
    ∀ (fuel : Nat) (pre : List String) (a : String) (rest visited : List String),
      l = pre ++ a :: rest → (∀ x ∈ a :: rest, x ∉ visited) →
      followChain (bestSuccessor (chainEdges l)) fuel visited a = (a :: rest).take fuel := by
  intro fuel
  induction fuel with
  | zero =>
      intro pre a rest visited hl hvis
      rfl
  | succ n ih =>
      intro pre a rest visited hl hvis
      have hnext : nextInChain l a = rest.head? := by
        have h := nextInChain_suffix pre a rest (hl ▸ hn)
        rwa [← hl] at h
      rw [followChain, bestSuccessor_chainEdges l hn a, hnext]
      cases rest with
      | nil => simp
      | cons b rest₂ =>
          dsimp only [List.head?]
          have hsuffix : (a :: b :: rest₂).Nodup := by
            have := hl ▸ hn
            exact this.of_append_right
          have hguard : b ∉ a :: visited := by
            intro hmem
            rcases List.mem_cons.mp hmem with rfl | hv
            · exact (List.nodup_cons.mp hsuffix).1 (List.mem_cons_self b rest₂)
            · exact hvis b (List.mem_cons_of_mem a (List.mem_cons_self b rest₂)) hv
          rw [if_neg hguard, List.take_succ_cons]
          have hl₂ : l = (pre ++ [a]) ++ b :: rest₂ := by
            rw [hl, List.append_assoc]
            rfl
          have hvis₂ : ∀ x ∈ b :: rest₂, x ∉ a :: visited := by
            intro x hx hmem
            rcases List.mem_cons.mp hmem with rfl | hv
            · exact (List.nodup_cons.mp hsuffix).1 hx
            · exact hvis x (List.mem_cons_of_mem a hx) hv
          rw [ih (pre ++ [a]) b rest₂ (a :: visited) hl₂ hvis₂]

/-- C4: on a linear chain graph, `get_path_preview` starting at the chain's
first node with depth `D` returns exactly the first `min(L, D+1)` nodes of
the chain, in chain order; and on every graph the preview contains at most
`depth + 1` nodes. -/
theorem get_path_preview_spec :
    (∀ (g : Graph) (s : String) (d : Nat), (get_path_preview g s d).length ≤ d + 1) ∧
    (∀ (a : String) (rest : List String) (d : Nat),
      (a :: rest).Nodup → normalize a = a →
      get_path_preview (chainGraph (a :: rest)) a d = (a :: rest).take (d + 1) ∧
      (get_path_preview (chainGraph (a :: rest)) a d).length =
        min (rest.length + 1) (d + 1)) := by
  constructor
  · intro g s d
    exact followChain_length (bestSuccessor g.edges) (d + 1) [] (normalize s)
  · intro a rest d hnd hnorm
    have hmain := followChain_chainGraph (a :: rest) hnd (d + 1) [] a rest [] rfl
      (by simp)
    have hpre : get_path_preview (chainGraph (a :: rest)) a d =
        (a :: rest).take (d + 1) := by
      rw [get_path_preview, hnorm]
      exact hmain
    refine ⟨hpre, ?_⟩
    rw [hpre, List.length_take, List.length_cons, Nat.min_comm]

/-- Witness for C4, the spec's scenario: on the chain
a → b → c → d2 → e → f, a preview from a at depth 3 returns exactly the
first four nodes in chain order. -/
theorem get_path_preview_spec_witness :
    get_path_preview (chainGraph ["a", "b", "c", "d2", "e", "f"]) "a" 3 =
      ["a", "b", "c", "d2"] :=
  (get_path_preview_spec.2 "a" ["b", "c", "d2", "e", "f"] 3 (by decide) (by decide)).1

/-- C10: `retrieve_chunks_by_concept` is total at its boundary: it returns
the empty list for an empty (falsy) concept name, returns the empty list
(instead of propagating) when the underlying store query raises, and on
success returns exactly the rows whose `concept_tag` matches the concept
case-insensitively, in ascending-id order. -/
theorem retrieve_chunks_by_concept_spec (db : Except Unit (List LearningChunk))
    (concept : String) (table : List LearningChunk) :
    (concept.isEmpty = true → retrieve_chunks_by_concept db concept = []) ∧
    (∀ e : Unit, db = Except.error e → retrieve_chunks_by_concept db concept = []) ∧
    (db = Except.ok table → concept.isEmpty = false →
      (retrieve_chunks_by_concept db concept).Pairwise (fun a b => a.id ≤ b.id) ∧
      ∀ ch, ch ∈ retrieve_chunks_by_concept db concept ↔
        ch ∈ table ∧ normalize ch.concept_tag = normalize concept) := by
  refine ⟨?_, ?_, ?_⟩
  · intro h
    rw [retrieve_chunks_by_concept, if_pos h]
  · intro e he
    subst he
    rw [retrieve_chunks_by_concept]
    by_cases h : concept.isEmpty = true
    · rw [if_pos h]
    · rw [if_neg h]
      rfl
  · intro hdb hne
    subst hdb
    have hrw : retrieve_chunks_by_concept (Except.ok table) concept =
        query_chunks table concept := by
      rw [retrieve_chunks_by_concept, if_neg (by simp [hne])]
      rfl
    rw [hrw]
    constructor
    · have hs : (query_chunks table concept).Pairwise
          (fun a b => (decide (a.id ≤ b.id)) = true) := by
        rw [query_chunks]
        apply List.sorted_mergeSort
        · intro a b c hab hbc
          simp only [decide_eq_true_eq] at hab hbc ⊢
          exact Nat.le_trans hab hbc
        · intro a b
          simp only [Bool.or_eq_true, decide_eq_true_eq]
          exact Nat.le_total a.id b.id
      exact hs.imp (fun h => by simpa using h)
    · intro ch
      rw [query_chunks,
        (List.mergeSort_perm
          (table.filter fun r => normalize r.concept_tag == normalize concept)
          (fun a b => a.id ≤ b.id)).mem_iff]
      simp [List.mem_filter]

/-- Witness for C10: empty concept name and raising store both yield the
empty list; a row whose tag matches the requested concept up to case is
returned. -/
theorem retrieve_chunks_by_concept_spec_witness :
    retrieve_chunks_by_concept (Except.ok ([] : List LearningChunk)) "" = [] ∧
    retrieve_chunks_by_concept (Except.error ()) "abc" = [] ∧
    (⟨1, "d", "x", "foo"⟩ : LearningChunk) ∈
      retrieve_chunks_by_concept (Except.ok [⟨1, "d", "x", "foo"⟩]) "FOO" :=
  ⟨(retrieve_chunks_by_concept_spec (Except.ok []) "" []).1 (by decide),
   (retrieve_chunks_by_concept_spec (Except.error ()) "abc" []).2.1 () rfl,
   (((retrieve_chunks_by_concept_spec (Except.ok [⟨1, "d", "x", "foo"⟩]) "FOO"
        [⟨1, "d", "x", "foo"⟩]).2.2 rfl (by decide)).2 ⟨1, "d", "x", "foo"⟩).mpr
     ⟨List.mem_singleton_self _, by decide⟩⟩

end LearnFast
